/-
Verification of the vsnap snapshot/restore pipeline against its design
specification.

The development shallowly embeds the relevant Rust sources:
  * rust/cli/src/library/docker.rs   (naming, discovery, volume and
    container lifecycle, run_command)
  * rust/runner/src/library/snapshot.rs  (snapshot, restore, compress_dir,
    decompress_tar, copy_dir, calculate_total_size, handle_progress)
  * rust/runner/src/library/progress.rs  (ProgressReporter::listen)
  * rust/runner/src/library/metadata.rs  (SnapshotMetadata)

Machine integers are modelled as Nat/Int (an i64 timestamp carries the
explicit bound 2^63 - 1 where it matters), fallible operations return
Except, and filesystem state is passed explicitly.
-/
import Mathlib

namespace Vsnap

instance {ε α : Type} [DecidableEq ε] [DecidableEq α] : DecidableEq (Except ε α) := fun x y =>
  match x, y with
  | .ok a, .ok b =>
    if h : a = b then .isTrue (by rw [h]) else .isFalse (by intro he; cases he; exact h rfl)
  | .error a, .error b =>
    if h : a = b then .isTrue (by rw [h]) else .isFalse (by intro he; cases he; exact h rfl)
  | .ok _, .error _ => .isFalse (by intro h; cases h)
  | .error _, .ok _ => .isFalse (by intro h; cases h)

/-! ## Decimal rendering and parsing

Rust renders an i64 with `format!("{}", t)`: plain decimal digits, a
leading minus sign for negative values, no padding.  The fuel-indexed
helper keeps the definition structurally recursive so that it reduces
inside the kernel. -/

def natDigitsAux : Nat → Nat → List Char
  | 0, _ => []
  | fuel + 1, n => if n = 0 then [] else natDigitsAux fuel (n / 10) ++ [Nat.digitChar (n % 10)]

/-- Decimal digits of a natural number, most significant first. -/
def natDecimalDigits (n : Nat) : List Char :=
  if n = 0 then ['0'] else natDigitsAux n n

def natDecimalString (n : Nat) : String :=
  String.mk (natDecimalDigits n)

/-- Decimal rendering of an Int, as Rust's Display for i64 produces it. -/
def intDecimalString (t : Int) : String :=
  if t < 0 then "-" ++ natDecimalString t.natAbs else natDecimalString t.natAbs

/-- Numeric value of a digit string (the fold str::parse performs). -/
def digitsVal (ds : List Char) : Nat :=
  ds.foldl (fun a c => 10 * a + (c.toNat - 48)) 0

def I64_MAX : Nat := 9223372036854775807

/-- Model of `str::parse::<i64>()` applied to a run of decimal digits (the
regex capture group only ever contains digits): it fails exactly when the
value overflows i64.  The nonnegative branch suffices because the capture
group `(\d\x7b10,\x7d)` never contains a sign. -/
def parse_i64 (ds : List Char) : Except String Int :=
  if ds = [] then .error "cannot parse integer from empty string"
  else if digitsVal ds ≤ I64_MAX then .ok (Int.ofNat (digitsVal ds))
  else .error "number too large to fit in target type"

/-! ## Naming and discovery (rust/cli/src/library/docker.rs)

`SNAPSHOT_PREFIX_REGEX` is `^vsnap-(\d\x7b10,\x7d)-`.  Matching it against a
string: the literal `vsnap-` must open the string, then the greedy digit
class takes the maximal run of digits (shortening the run can never help,
because the following character would then be a digit rather than `-`),
which must be at least 10 long and be followed by `-`.  The returned pair
is (capture group 1, the remainder after the full match). -/

def matchSnapshotTag (cs : List Char) : Option (List Char × List Char) :=
  match cs with
  | 'v' :: 's' :: 'n' :: 'a' :: 'p' :: '-' :: rest =>
    let ds := rest.takeWhile Char.isDigit
    if 10 ≤ ds.length then
      match rest.dropWhile Char.isDigit with
      | '-' :: after => some (ds, after)
      | _ => none
    else none
  | _ => none

/-- Embedding of `get_snapshot_volume_name`:
`format!("vsnap-\x7b\x7d-\x7b\x7d", timestamp, name)`. -/
def get_snapshot_volume_name (timestamp : Int) (name : String) : String :=
  "vsnap-" ++ intDecimalString timestamp ++ "-" ++ name

/-- Embedding of `strip_snapshot_prefix`: `SNAPSHOT_PREFIX_REGEX.replace(v, "")`
removes the anchored match when there is one and otherwise returns the
input unchanged. -/
def strip_snapshot_tag (volume_name : String) : String :=
  match matchSnapshotTag volume_name.toList with
  | some (_, after) => String.mk after
  | none => volume_name

/-- Maximum Unix timestamp chrono can represent: the seconds value of
262143-12-31T23:59:59 UTC, NaiveDate::MAX being year 262143 (i32::MAX >> 13).
Derived by the Gregorian day count: 365 * (262143 - 1970) + (leap years in
1970..262142) = 95026237 days to 262143-01-01, plus 364 days, times 86400,
plus 86399 seconds. -/
def chronoMaxTimestamp : Int := 8210298412799

/-- Minimum Unix timestamp chrono can represent: the seconds value of
-262144-01-01T00:00:00 UTC, NaiveDate::MIN being year -262144 (i32::MIN >> 13):
-(365 * 264114 + 64048 leap days) * 86400. -/
def chronoMinTimestamp : Int := -8334632851200

/-- Embedding of `extract_snapshot_datetime`.  The Rust function returns a
local NaiveDateTime; the model returns the Unix timestamp underlying that
datetime, since `with_timezone(&Local).naive_local()` is a total
presentation step on the instant.  `chrono::DateTime::from_timestamp`
returns None exactly when the seconds value falls outside the NaiveDateTime
range, which the `ok_or` turns into the second error. -/
def extract_snapshot_datetime (volume_name : String) : Except String Int :=
  match matchSnapshotTag volume_name.toList with
  | none => .error ("Failed to extract timestamp from volume name: " ++ volume_name)
  | some (ds, _) =>
    match parse_i64 ds with
    | .error e => .error e
    | .ok timestamp =>
      if chronoMinTimestamp ≤ timestamp ∧ timestamp ≤ chronoMaxTimestamp then .ok timestamp
      else .error ("Failed to parse timestamp from volume name: " ++ volume_name)

/-- Docker's volume `name` filter matches any volume whose name contains the
given string as a substring; modelled for the `vsnap-` pre-filter in
`find_snapshot_volume_names`. -/
def containsSub (hay needle : List Char) : Bool :=
  hay.tails.any (fun t => needle.isPrefixOf t)

/-- Embedding of `find_snapshot_volume_names`: queries the runtime for
volumes whose name contains `vsnap-` and keeps those fully matching the
naming regex.  The ambient list of all volume names stands for the
runtime's volume namespace. -/
def find_snapshot_volume_names (all_volume_names : List String) : List String :=
  (all_volume_names.filter (fun v => containsSub v.toList "vsnap-".toList)).filter
    (fun v => (matchSnapshotTag v.toList).isSome)

/-- Embedding of `find_snapshot_volume_name_by_snapshot_name`: keeps the
snapshot volumes whose decoded name equals the requested one and applies
Itertools::at_most_one — zero matches give Ok(None), one gives Ok(Some),
several give the ambiguity error. -/
def find_snapshot_volume_name_by_snapshot_name (all_volume_names : List String)
    (snapshot_name : String) : Except String (Option String) :=
  let volume_names := (find_snapshot_volume_names all_volume_names).filter
    (fun v => strip_snapshot_tag v = snapshot_name)
  match volume_names with
  | [] => .ok none
  | [v] => .ok (some v)
  | _ => .error ("More than one snapshot with the same name: " ++ snapshot_name)

/-! ## Progress protocol (rust/runner: snapshot.rs handle_progress,
progress.rs ProgressReporter::listen; cli/src/library.rs Progress)

The Progress struct has fields `progress` then `total`; serde_json
serializes it in declaration order with no trailing newline. -/

/-- Bytes serde_json::to_vec produces for a Progress record (ASCII). -/
def progressJsonBytes (progress total : Nat) : String :=
  "\x7b\"progress\":" ++ natDecimalString progress ++ ",\"total\":" ++ natDecimalString total ++ "\x7d"

/-- One newline-terminated progress line, as ProgressReporter::listen emits
it after `output.push(b'\n')`. -/
def progressJsonLine (progress total : Nat) : String :=
  progressJsonBytes progress total ++ "\n"

/-- The accumulator update shared by handle_progress (snapshot.rs line 28)
and ProgressReporter::listen (progress.rs line 106):
`progress = min(progress + bytes, total_size)`. -/
def progress_update (total_size progress bytes : Nat) : Nat :=
  min (progress + bytes) total_size

/-- Embedding of `handle_progress`: first component is the updated
accumulator; second component is the list of lines the call writes to
standard output.  The source maps an `async` block over the serialized
bytes and drops the resulting future without awaiting it
(`.ok().map(async |x| stdout_handle.write_all(..).await)` as a discarded
statement), so no bytes ever reach standard output: the written list is
empty. -/
def handle_progress (total_size progress bytes_written : Nat) : Nat × List String :=
  (progress_update total_size progress bytes_written, [])

/-- Embedding of `ProgressReporter::listen`: for each chunk size received
on the channel it updates the accumulator, serializes a Progress record,
appends a newline and awaits the write, yielding one line per chunk. -/
def progress_reporter_listen (total_size : Nat) (chunks : List Nat) : List String :=
  (chunks.foldl
    (fun (acc : Nat × List String) c =>
      let p := progress_update total_size acc.1 c
      (p, acc.2 ++ [progressJsonLine p total_size]))
    (0, [])).2

/-- Successive accumulator values produced during one operation that
reports the given chunk sizes, starting from progress `p` (the operations
start it at 0). -/
def progressSeq (total_size : Nat) : List Nat → Nat → List Nat
  | [], _ => []
  | c :: cs, p =>
    let p1 := progress_update total_size p c
    p1 :: progressSeq total_size cs p1

/-! ## Container runtime model (rust/cli/src/library/docker.rs)

The runtime's volume/container namespace is the only external state the
orchestrator touches; it is modelled as explicit lists.  A container
carries the name list the daemon reports (each name is `/`-prefixed by the
Docker API) and the volumes it references. -/

structure DockerContainer where
  names : List String
  mounts : List String
deriving DecidableEq

structure DockerState where
  volumes : List String
  containers : List DockerContainer
deriving DecidableEq

/-- Model of `name.strip_prefix("/")`. -/
def strip_slash (n : String) : Option String :=
  match n.toList with
  | '/' :: rest => some (String.mk rest)
  | _ => none

/-- Model of `docker.list_containers(all: true, filters: volume=v)`: every
container, running or stopped, that references the volume. -/
def list_containers_with_volume (containers : List DockerContainer) (volume_name : String) :
    List DockerContainer :=
  containers.filter (fun c => volume_name ∈ c.mounts)

/-- The display names `verify_volume_not_in_use` collects: the first
reported name of each matching container, with the leading slash removed
(containers whose name list is empty or not slash-prefixed are skipped by
the filter_map, exactly as in the source). -/
def in_use_container_names (containers : List DockerContainer) (volume_name : String) :
    List String :=
  (list_containers_with_volume containers volume_name).filterMap
    (fun c => c.names.head?.bind strip_slash)

/-- Embedding of `verify_volume_not_in_use`. -/
def verify_volume_not_in_use (containers : List DockerContainer) (volume_name : String) :
    Except String Unit :=
  let container_names := in_use_container_names containers volume_name
  if 0 < container_names.length then
    .error ("Volume is in use by " ++ String.intercalate ", " container_names)
  else .ok ()

/-- Model of `docker.remove_volume`: removing an absent volume is the
daemon's own error, otherwise the volume disappears. -/
def remove_volume (st : DockerState) (volume_name : String) : Except String DockerState :=
  if volume_name ∈ st.volumes then
    .ok { st with volumes := st.volumes.erase volume_name }
  else .error ("No such volume: " ++ volume_name)

/-- Embedding of `drop_volume`: re-checks not-in-use, then removes. -/
def drop_volume (st : DockerState) (volume_name : String) : Except String DockerState := do
  let _ ← verify_volume_not_in_use st.containers volume_name
  remove_volume st volume_name

/-! ### run_command (docker.rs lines 246-306)

The worker run is driven against the daemon; the interactions that can
fail or change container state are captured by an oracle of injected
outcomes.  Following the logs and waiting on the container cannot alter
the returned value in the source — both streams are consumed with
`for_each` closures that discard every item — so only the exit code is
recorded (unused, as in the source). -/

structure RunOracle where
  image_present : Bool
  pull_fails : Bool
  create_fails : Bool
  start_fails : Bool
  wait_exit_code : Int
  remove_fails : Bool
deriving DecidableEq

structure RunOutcome where
  result : Except String Unit
  containers : List String
  removal_attempted : Bool

/-- The generated worker container name,
`format!("vsnap-\x7b\x7d", chrono::Utc::now().timestamp())`. -/
def container_name_for (now_timestamp : Int) : String :=
  "vsnap-" ++ intDecimalString now_timestamp

/-- Embedding of `run_command`.  Mirrors the source's shape: ensure the
image (`?` propagates a pull failure before any container exists), run the
async closure (create, start, follow logs, wait — the wait stream's items,
including a non-zero exit, are discarded by `for_each(async |_| \x7b\x7d)`),
then `match` the closure's result with a wildcard arm whose body removes
the container with `.ok()` swallowing removal failures, and finally return
`Ok(())` unconditionally. -/
def run_command (o : RunOracle) (containers : List String) (now_timestamp : Int) : RunOutcome :=
  let container_name := container_name_for now_timestamp
  if o.image_present = false ∧ o.pull_fails = true then
    { result := .error "pull_image", containers := containers, removal_attempted := false }
  else
    let closure : Except String Unit × List String :=
      if o.create_fails then (.error "create_container", containers)
      else if o.start_fails then (.error "start_container", containers ++ [container_name])
      else (.ok (), containers ++ [container_name])
    let after_removal : List String :=
      if o.remove_fails then closure.2 else closure.2.erase container_name
    match closure.1 with
    | _ => { result := .ok (), containers := after_removal, removal_attempted := true }

/-! ## Filesystem and archive model (rust/runner/src/library/snapshot.rs)

A directory tree is a list of entries in walk order: `walkdir` (with
follow_links(false)) yields the root first — which the archiver skips and
the model leaves implicit — and then every entry after its parent
directory.  A path is the list of its components relative to the walk
root; regular files carry their bytes, symlinks their target text
(read_link is never followed). -/

abbrev FsPath := List String

inductive NodeKind where
  | dir
  | file (contents : List Nat)
  | symlink (target : String)
deriving DecidableEq

abbrev Fs := List (FsPath × NodeKind)

/-- First entry at the given path, the way the OS resolves a name. -/
def lookupFs : Fs → FsPath → Option NodeKind
  | [], _ => none
  | e :: fs, p => if e.1 = p then some e.2 else lookupFs fs p

def parentOf (p : FsPath) : FsPath := p.dropLast

/-- The path denotes an existing directory; the walk root itself is always
a directory. -/
def isDirAt (fs : Fs) (p : FsPath) : Prop :=
  p = [] ∨ lookupFs fs p = some NodeKind.dir

instance (fs : Fs) (p : FsPath) : Decidable (isDirAt fs p) := by
  unfold isDirAt; infer_instance

/-- Model of `std::fs::create_dir` as tar-rs directory unpacking uses it:
an existing directory is tolerated, an existing non-directory or a missing
parent is an error.  Modelling boundary: a pre-existing symlink at the
path — which tar-rs tolerates when its symlink-following metadata check
reports a directory, letting later entries traverse the link — is collapsed
to the non-directory error here; no theorem below quantifies over a state
holding a symlink at an unpack target, so this branch is outside every
verified domain. -/
def create_dir_once (fs : Fs) (p : FsPath) : Except String Fs :=
  if isDirAt fs p then .ok fs
  else if (lookupFs fs p).isSome then .error "create_dir: path exists and is not a directory"
  else if isDirAt fs (parentOf p) then .ok (fs ++ [(p, NodeKind.dir)])
  else .error "create_dir: parent directory missing"

/-- Model of `std::fs::create_dir_all`: every missing ancestor is created
in order; an existing directory anywhere on the chain is fine, an existing
non-directory is an error. -/
def create_dir_all (fs : Fs) (p : FsPath) : Except String Fs :=
  (List.range p.length).foldlM (fun fs i => create_dir_once fs (p.take (i + 1))) fs

/-- Model of `File::create` followed by writing the bytes: truncates an
existing regular file, errors on a directory or a missing parent.
Modelling boundary: a pre-existing symlink at the target — which
File::create would follow, writing through the link and possibly outside
the destination — is collapsed to an error here; the flows verified below
only ever write into fresh locations, so this branch is outside every
verified domain. -/
def write_file (fs : Fs) (p : FsPath) (contents : List Nat) : Except String Fs :=
  if p = [] then .error "File::create: is a directory"
  else if ¬ isDirAt fs (parentOf p) then .error "File::create: parent directory missing"
  else
    match lookupFs fs p with
    | some NodeKind.dir => .error "File::create: is a directory"
    | some (NodeKind.symlink _) => .error "File::create: target is an existing symlink"
    | some (NodeKind.file _) =>
      .ok (fs.map (fun e => if e.1 = p then (p, NodeKind.file contents) else e))
    | none => .ok (fs ++ [(p, NodeKind.file contents)])

/-- Model of `std::os::unix::fs::symlink(target, dst)`: errors if dst
already exists or its parent is missing; records the target text
unresolved.  Modelling boundary: tar-rs unpack with its default overwrite
behaviour first removes an existing node at dst and recreates the symlink;
that overwrite path is collapsed to the exists error here, and no theorem
below unpacks a symlink onto an occupied path, so the branch is outside
every verified domain. -/
def make_symlink (fs : Fs) (p : FsPath) (target : String) : Except String Fs :=
  if p = [] then .error "symlink: path exists"
  else if (lookupFs fs p).isSome then .error "symlink: path exists"
  else if isDirAt fs (parentOf p) then .ok (fs ++ [(p, NodeKind.symlink target)])
  else .error "symlink: parent directory missing"

/-- A tar header path: entry paths in an arbitrary archive are untrusted
and may be absolute or contain `..` components. -/
structure TarPath where
  absolute : Bool
  components : List String
deriving DecidableEq

inductive TarEntry where
  | dir (path : TarPath)
  | file (path : TarPath) (contents : List Nat)
  | symlink (path : TarPath) (target : String)
deriving DecidableEq

def TarEntry.path : TarEntry → TarPath
  | .dir p => p
  | .file p _ => p
  | .symlink p _ => p

/-- Lexical path resolution the OS performs on the joined path: `.` is
dropped and `..` pops the last component (the root's parent is the root). -/
def normalizeComponents (cs : List String) : FsPath :=
  cs.foldl (fun acc c => if c = ".." then acc.dropLast else if c = "." then acc else acc ++ [c]) []

/-- `destination_dir.join(entry.path()?)`: Rust's PathBuf::join replaces
the base entirely when the entry path is absolute, otherwise appends. -/
def resolveTarPath (destination_dir : FsPath) (p : TarPath) : FsPath :=
  if p.absolute then normalizeComponents p.components
  else normalizeComponents (destination_dir ++ p.components)

/-- Embedding of `compress_dir` (snapshot.rs lines 209-272): walk the
source without following symlinks, skip the root, and append one tar entry
per node — a symlink header carrying the read_link target, a directory
entry, or a file entry streaming the file's bytes.  The zstd encoder is a
faithful invertible byte encoding of the tar stream, so the produced
`snapshot.tar.zst` is modelled by the entry list it encodes. -/
def compress_dir (source : Fs) : List TarEntry :=
  source.map (fun e =>
    match e.2 with
    | NodeKind.symlink target => TarEntry.symlink ⟨false, e.1⟩ target
    | NodeKind.dir => TarEntry.dir ⟨false, e.1⟩
    | NodeKind.file contents => TarEntry.file ⟨false, e.1⟩ contents)

/-- One iteration of the decompress_tar loop:
`entry.unpack(&destination_dir.join(entry.path()?))?`.  tar-rs Entry::unpack
at an explicit path performs no containment check and no symlink defense
(both belong to unpack_in, which the source does not use); it dispatches on
the entry type to create_dir / File::create / symlink. -/
def unpack_entry (destination_dir : FsPath) (fs : Fs) (e : TarEntry) : Except String Fs :=
  match e with
  | .dir p => create_dir_once fs (resolveTarPath destination_dir p)
  | .file p contents => write_file fs (resolveTarPath destination_dir p) contents
  | .symlink p target => make_symlink fs (resolveTarPath destination_dir p) target

/-- Embedding of `decompress_tar` (snapshot.rs lines 274-292): read the
entries of the zstd-decoded stream in order and unpack each at the joined
path. -/
def decompress_tar (entries : List TarEntry) (destination_dir : FsPath) (fs : Fs) :
    Except String Fs :=
  entries.foldlM (unpack_entry destination_dir) fs

/-- One iteration of the copy_dir loop: join the relative path (a real
walk never yields `.`/`..` components, so the join is plain append) and
dispatch on the file type — symlink recreated from read_link, directory via
create_dir_all, file via File::create plus copy_with_progress. -/
def copy_entry (destination_dir : FsPath) (fs : Fs) (e : FsPath × NodeKind) : Except String Fs :=
  let destination_path := destination_dir ++ e.1
  match e.2 with
  | NodeKind.symlink target => make_symlink fs destination_path target
  | NodeKind.dir => create_dir_all fs destination_path
  | NodeKind.file contents => write_file fs destination_path contents

/-- Embedding of `copy_dir` (snapshot.rs lines 294-324): create_dir_all on
the destination, then walk the source — the root entry first (relative
path empty, a directory), then every node in parents-first order. -/
def copy_dir (source : Fs) (destination_dir : FsPath) (fs : Fs) : Except String Fs := do
  let fs ← create_dir_all fs destination_dir
  (([], NodeKind.dir) :: source).foldlM (copy_entry destination_dir) fs

/-- Embedding of `calculate_total_size` (snapshot.rs lines 103-113): walk
without following symlinks, keep the metadata of entries for which
`is_file()` holds — with follow_links(false) a symlink reports its own
(non-file) metadata, so only regular files survive — and sum their byte
lengths. -/
def calculate_total_size (source : Fs) : Nat :=
  (source.filterMap (fun e =>
    match e.2 with
    | NodeKind.file contents => some contents.length
    | _ => none)).sum

/-- The snapshot volume's contents.  `metadata_total_size` is the
`total_size` field of the SnapshotMetadata JSON file; `tar_zst` is the
`snapshot.tar.zst` archive when present (modelled through the zstd codec
as the tar entry stream it encodes); `files_dir` is the `files`
subdirectory used by uncompressed snapshots.  The runner's constant names
are not under src/; the three being distinct named locations inside the
snapshot volume is all the model needs. -/
structure SnapshotDir where
  metadata_total_size : Option Nat
  tar_zst : Option (List TarEntry)
  files_dir : Option Fs
deriving DecidableEq

/-- Embedding of `snapshot` (snapshot.rs lines 38-62): compute the total
size, persist it as metadata, then either build the compressed archive or
copy the tree into the files subdirectory.  `snapshot_progress_total`
below is the same `total_size` value the function feeds to every
handle_progress call. -/
def snapshot (source : Fs) (compress : Bool) : Except String SnapshotDir :=
  let total_size := calculate_total_size source
  match compress with
  | true =>
    .ok { metadata_total_size := some total_size,
          tar_zst := some (compress_dir source),
          files_dir := none }
  | false => do
    let files ← copy_dir source [] []
    .ok { metadata_total_size := some total_size,
          tar_zst := none,
          files_dir := some files }

/-- The progress denominator `snapshot` binds as `total_size` and passes to
every handle_progress call (snapshot.rs lines 40, 49, 56). -/
def snapshot_progress_total (source : Fs) : Nat :=
  calculate_total_size source

/-- The spec's wording of the total: the sum of the byte lengths of the
regular files in the tree, with directory and symlink entries contributing
zero (a symlink's target contents are not part of the walk at all). -/
def regular_file_byte_total (t : Fs) : Nat :=
  (t.map (fun e =>
    match e.2 with
    | NodeKind.file contents => contents.length
    | NodeKind.dir => 0
    | NodeKind.symlink _ => 0)).sum

/-- Embedding of `restore` (snapshot.rs lines 64-101): reading the
metadata is fatal when it is missing; the format is then probed by the
existence of `snapshot.tar.zst` — decompress when present, otherwise copy
the `files` subdirectory (whose absence surfaces as the walk error). -/
def restore (snap : SnapshotDir) (restore_path : FsPath) (fs : Fs) : Except String Fs := do
  let _total_size ← match snap.metadata_total_size with
    | some n => Except.ok n
    | none => Except.error "SnapshotMetadata::read: metadata file missing"
  match snap.tar_zst with
  | some entries => decompress_tar entries restore_path fs
  | none =>
    match snap.files_dir with
    | some files => copy_dir files restore_path fs
    | none => .error "walkdir: files directory missing"

/-! ### Well-formedness of a walk

`WfWalk seen rest` processes the walk in order: every entry has a
nonempty, component-clean path, unseen so far, and its parent directory is
the walk root or appeared earlier as a directory — exactly what walkdir
guarantees for a real tree. -/

def cleanComponent (c : String) : Prop := c ≠ "" ∧ c ≠ "." ∧ c ≠ ".."

instance (c : String) : Decidable (cleanComponent c) := by
  unfold cleanComponent; infer_instance

def cleanPath (p : FsPath) : Prop := ∀ c ∈ p, cleanComponent c

instance (p : FsPath) : Decidable (cleanPath p) := by
  unfold cleanPath; infer_instance

def WfWalk : Fs → Fs → Prop
  | _, [] => True
  | seen, e :: rest =>
    e.1 ≠ [] ∧ cleanPath e.1 ∧ e.1 ∉ seen.map Prod.fst ∧
      (parentOf e.1 = [] ∨ (parentOf e.1, NodeKind.dir) ∈ seen) ∧
      WfWalk (seen ++ [e]) rest

instance instDecidableWfWalk : (seen rest : Fs) → Decidable (WfWalk seen rest)
  | _, [] => .isTrue trivial
  | seen, e :: rest =>
    have : Decidable (WfWalk (seen ++ [e]) rest) := instDecidableWfWalk _ _
    inferInstanceAs (Decidable (_ ∧ _ ∧ _ ∧ _ ∧ _))

def WellFormedFs (t : Fs) : Prop := WfWalk [] t

instance (t : Fs) : Decidable (WellFormedFs t) := by
  unfold WellFormedFs; infer_instance

/-- The destination directory chain: an empty destination directory whose
ancestors exist — the state `restore` runs against. -/
def dirChain (destination_dir : FsPath) : Fs :=
  (List.range destination_dir.length).map
    (fun i => (destination_dir.take (i + 1), NodeKind.dir))

/-- Re-root a tree of walk-relative paths below a destination directory. -/
def rerootAt (destination_dir : FsPath) (t : Fs) : Fs :=
  t.map (fun e => (destination_dir ++ e.1, e.2))

/-- The entries strictly below a directory, with paths made relative to
it: the restored tree as seen from the restore destination. -/
def subtreeAt (destination_dir : FsPath) (fs : Fs) : Fs :=
  fs.filterMap (fun e =>
    if destination_dir <+: e.1 ∧ e.1 ≠ destination_dir then
      some (e.1.drop destination_dir.length, e.2)
    else none)

/-! ## Progress lemmas -/

theorem progressSeq_mem_le (total_size : Nat) (cs : List Nat) :
    ∀ p, ∀ v ∈ progressSeq total_size cs p, v ≤ total_size := by
  induction cs with
  | nil => intro p v hv; simp [progressSeq] at hv
  | cons c cs ih =>
    intro p v hv
    simp only [progressSeq, List.mem_cons] at hv
    rcases hv with rfl | hv
    · exact Nat.min_le_right _ _
    · exact ih _ v hv

theorem progressSeq_chain (total_size : Nat) (cs : List Nat) :
    ∀ p, p ≤ total_size →
      List.Chain' (fun a b => a ≤ b) (p :: progressSeq total_size cs p) := by
  induction cs with
  | nil => intro p _; simp [progressSeq]
  | cons c cs ih =>
    intro p hp
    simp only [progressSeq]
    rw [List.chain'_cons]
    refine ⟨Nat.le_min.mpr ⟨Nat.le_add_right _ _, hp⟩, ?_⟩
    exact ih _ (Nat.min_le_right _ _)

theorem progressSeq_last (total_size : Nat) (cs : List Nat) :
    ∀ p, total_size ≤ p + cs.sum → cs ≠ [] →
      (progressSeq total_size cs p).getLast? = some total_size := by
  induction cs with
  | nil => intro p _ h; exact absurd rfl h
  | cons c cs ih =>
    intro p hsum _
    cases cs with
    | nil =>
      simp only [progressSeq, List.getLast?_singleton, Option.some.injEq]
      simp only [List.sum_cons, List.sum_nil] at hsum
      unfold progress_update
      omega
    | cons c2 cs2 =>
      have hstep : total_size ≤ progress_update total_size p c + (c2 :: cs2).sum := by
        simp only [List.sum_cons] at hsum ⊢
        unfold progress_update
        omega
      calc (progressSeq total_size (c :: c2 :: cs2) p).getLast?
          = (progressSeq total_size (c2 :: cs2) (progress_update total_size p c)).getLast? := by
            simp only [progressSeq]
            rw [List.getLast?_cons_cons]
        _ = some total_size := ih _ hstep (by simp)

/-- C6: for every total size and finite chunk sequence, the progress
values produced by the worker's accumulator (handle_progress and
ProgressReporter::listen both perform `progress = min(progress + bytes,
total)`) are non-decreasing, never exceed the total, and — when the
reported chunks sum to at least the total and at least one chunk was
reported — end exactly at the total. -/
theorem progress_values_monotone_bounded_complete (total_size : Nat) (chunks : List Nat) :
    List.Chain' (fun a b => a ≤ b) (progressSeq total_size chunks 0) ∧
    (∀ v ∈ progressSeq total_size chunks 0, v ≤ total_size) ∧
    (total_size ≤ chunks.sum → chunks ≠ [] →
      (progressSeq total_size chunks 0).getLast? = some total_size) := by
  refine ⟨?_, progressSeq_mem_le total_size chunks 0, ?_⟩
  · exact (progressSeq_chain total_size chunks 0 (Nat.zero_le _)).tail
  · intro hsum hne
    exact progressSeq_last total_size chunks 0 (by simpa using hsum) hne

/-- Witness for C6 at a concrete run: total 5, chunks [3, 3]. -/
theorem progress_values_monotone_bounded_complete_witness :
    (progressSeq 5 [3, 3] 0).getLast? = some 5 :=
  (progress_values_monotone_bounded_complete 5 [3, 3]).2.2 (by decide) (by decide)

/-- C7: handle_progress, the aggregator actually wired into snapshot and
restore, drops the serialized record without awaiting the write, so a
reported chunk produces no stdout line at all, while
ProgressReporter::listen — the claimed behaviour — emits exactly one
newline-terminated JSON object for the same chunk. -/
theorem handle_progress_emits_no_stdout_line :
    (handle_progress 10 0 5).2 = [] ∧
    progress_reporter_listen 10 [5] = [progressJsonLine 5 10] ∧
    progressJsonLine 5 10 = "\x7b\"progress\":5,\"total\":10\x7d\n" ∧
    (handle_progress 10 0 5).2 ≠ progress_reporter_listen 10 [5] := by decide

/-! ## run_command lemmas -/

/-- C3: run_command never surfaces the worker's outcome: with the worker
exiting 3 it still returns Ok, and with container creation failing the
orchestration error is also discarded by the wildcard match — both runs
return Ok(()) to the caller. -/
theorem run_command_swallows_failures :
    (run_command ⟨true, false, false, false, 3, false⟩ [] 0).result = .ok () ∧
    (run_command ⟨true, false, true, false, 0, false⟩ [] 0).result = .ok () ∧
    (run_command ⟨true, false, false, true, 0, false⟩ [] 0).result = .ok () := by decide

/-- C2: whenever the worker container was created (image step passed and
creation succeeded), run_command attempts removal before returning, and —
the daemon accepting the removal — no container with the generated name
remains, for every start outcome and worker exit code. -/
theorem run_command_always_removes_container (o : RunOracle) (cs : List String) (ts : Int)
    (himage : o.image_present = true ∨ o.pull_fails = false)
    (hcreate : o.create_fails = false)
    (hremove : o.remove_fails = false)
    (hfresh : container_name_for ts ∉ cs) :
    (run_command o cs ts).removal_attempted = true ∧
      container_name_for ts ∉ (run_command o cs ts).containers := by
  obtain ⟨ip, pf, cf, sf, ec, rf⟩ := o
  simp only at hcreate hremove
  subst hcreate hremove
  have herase : (cs ++ [container_name_for ts]).erase (container_name_for ts) = cs := by
    rw [List.erase_append_right _ hfresh]
    simp
  cases ip <;> cases pf <;> cases sf <;>
    simp_all [run_command]

/-- Witness for C2: worker created, start fails, removal still happens. -/
theorem run_command_always_removes_container_witness :
    (run_command ⟨true, false, false, true, 2, false⟩ ["db"] 5).removal_attempted = true ∧
      container_name_for 5 ∉ (run_command ⟨true, false, false, true, 2, false⟩ ["db"] 5).containers :=
  run_command_always_removes_container ⟨true, false, false, true, 2, false⟩ ["db"] 5
    (Or.inl rfl) rfl rfl (by decide)

/-! ## Snapshot resolution (C4) -/

/-- C4: find_snapshot_volume_name_by_snapshot_name keeps exactly the
snapshot volumes whose decoded name equals the requested one, returns the
single match, None on zero matches, and the ambiguity error on two or
more — never an arbitrary pick. -/
theorem resolve_by_name_exactly_one (all_volume_names : List String) (snapshot_name : String) :
    ((find_snapshot_volume_names all_volume_names).filter
        (fun v => strip_snapshot_tag v = snapshot_name) = [] →
      find_snapshot_volume_name_by_snapshot_name all_volume_names snapshot_name = .ok none) ∧
    (∀ v, (find_snapshot_volume_names all_volume_names).filter
        (fun v => strip_snapshot_tag v = snapshot_name) = [v] →
      find_snapshot_volume_name_by_snapshot_name all_volume_names snapshot_name = .ok (some v)) ∧
    (2 ≤ ((find_snapshot_volume_names all_volume_names).filter
        (fun v => strip_snapshot_tag v = snapshot_name)).length →
      find_snapshot_volume_name_by_snapshot_name all_volume_names snapshot_name
        = .error ("More than one snapshot with the same name: " ++ snapshot_name)) := by
  refine ⟨?_, ?_, ?_⟩
  · intro h
    simp [find_snapshot_volume_name_by_snapshot_name, h]
  · intro v h
    simp [find_snapshot_volume_name_by_snapshot_name, h]
  · intro h
    rcases hm : (find_snapshot_volume_names all_volume_names).filter
        (fun v => strip_snapshot_tag v = snapshot_name) with _ | ⟨v, _ | ⟨w, rest⟩⟩
    · rw [hm] at h; simp at h
    · rw [hm] at h; simp at h
    · simp [find_snapshot_volume_name_by_snapshot_name, hm]

/-- Witness for C4 at a concrete ambiguous volume set. -/
theorem resolve_by_name_exactly_one_witness :
    find_snapshot_volume_name_by_snapshot_name
        ["vsnap-1234567890-dup", "vsnap-1234567891-dup"] "dup"
      = .error ("More than one snapshot with the same name: " ++ "dup") :=
  (resolve_by_name_exactly_one ["vsnap-1234567890-dup", "vsnap-1234567891-dup"] "dup").2.2
    (by decide)

/-! ## Volume drop guard (C9) -/

/-- C9: when any container — running or stopped — references the volume,
drop_volume returns the in-use error naming the referencing containers and
never returns success; when no container references it (and the volume
exists), the volume is removed.  The hypothesis records the Docker API
invariant that every listed container reports at least one name, prefixed
with a slash. -/
theorem drop_volume_in_use_guard (st : DockerState) (v : String)
    (hnames : ∀ c ∈ st.containers, v ∈ c.mounts →
      (c.names.head?.bind strip_slash).isSome = true) :
    ((∃ c ∈ st.containers, v ∈ c.mounts) →
      drop_volume st v = .error ("Volume is in use by " ++
        String.intercalate ", " (in_use_container_names st.containers v))) ∧
    ((∃ c ∈ st.containers, v ∈ c.mounts) → ∀ st', drop_volume st v ≠ .ok st') ∧
    ((¬ ∃ c ∈ st.containers, v ∈ c.mounts) → v ∈ st.volumes →
      drop_volume st v = .ok { st with volumes := st.volumes.erase v }) := by
  have herr : (∃ c ∈ st.containers, v ∈ c.mounts) →
      drop_volume st v = .error ("Volume is in use by " ++
        String.intercalate ", " (in_use_container_names st.containers v)) := by
    intro ⟨c, hc, hm⟩
    have hmemfilter : c ∈ list_containers_with_volume st.containers v := by
      simp [list_containers_with_volume, List.mem_filter, hc, hm]
    obtain ⟨n, hn⟩ := Option.isSome_iff_exists.mp (hnames c hc hm)
    have hmem : n ∈ in_use_container_names st.containers v := by
      exact List.mem_filterMap.mpr ⟨c, hmemfilter, hn⟩
    have hpos : 0 < (in_use_container_names st.containers v).length :=
      List.length_pos.mpr (List.ne_nil_of_mem hmem)
    simp only [drop_volume, verify_volume_not_in_use, if_pos hpos]
    rfl
  refine ⟨herr, ?_, ?_⟩
  · intro hex st'
    rw [herr hex]
    simp
  · intro hnone hv
    have hempty : in_use_container_names st.containers v = [] := by
      unfold in_use_container_names list_containers_with_volume
      rw [List.filter_eq_nil_iff.mpr]
      · rfl
      · intro c hc
        simpa using fun hm => hnone ⟨c, hc, hm⟩
    simp only [drop_volume, verify_volume_not_in_use, hempty]
    simp only [remove_volume, if_pos hv, List.length_nil, lt_self_iff_false, if_false]
    rfl

/-- Witness for C9: one stopped container referencing the volume blocks
the drop. -/
theorem drop_volume_in_use_guard_witness :
    drop_volume ⟨["v1"], [⟨["/db"], ["v1"]⟩]⟩ "v1"
      = .error ("Volume is in use by " ++
        String.intercalate ", " (in_use_container_names [⟨["/db"], ["v1"]⟩] "v1")) :=
  (drop_volume_in_use_guard ⟨["v1"], [⟨["/db"], ["v1"]⟩]⟩ "v1" (by decide)).1 (by decide)

/-! ## Decimal digit lemmas (for C8) -/

theorem digitChar_isDigit (d : Nat) (h : d < 10) : (Nat.digitChar d).isDigit = true := by
  interval_cases d <;> decide

theorem digitChar_val (d : Nat) (h : d < 10) : (Nat.digitChar d).toNat - 48 = d := by
  interval_cases d <;> decide

theorem natDigitsAux_isDigit (fuel : Nat) :
    ∀ n, n ≤ fuel → ∀ c ∈ natDigitsAux fuel n, c.isDigit = true := by
  induction fuel with
  | zero => intro n _ c hc; simp [natDigitsAux] at hc
  | succ fuel ih =>
    intro n hn c hc
    by_cases h0 : n = 0
    · simp [natDigitsAux, h0] at hc
    · simp only [natDigitsAux, if_neg h0, List.mem_append, List.mem_singleton] at hc
      rcases hc with hc | rfl
      · have hdiv : n / 10 ≤ fuel := by
          have := Nat.div_lt_self (Nat.pos_of_ne_zero h0) (by norm_num : 1 < 10)
          omega
        exact ih (n / 10) hdiv c hc
      · exact digitChar_isDigit _ (Nat.mod_lt _ (by norm_num))

theorem digitsVal_append_singleton (ds : List Char) (c : Char) :
    digitsVal (ds ++ [c]) = 10 * digitsVal ds + (c.toNat - 48) := by
  unfold digitsVal
  rw [List.foldl_append]
  rfl

theorem natDigitsAux_val (fuel : Nat) :
    ∀ n, n ≤ fuel → digitsVal (natDigitsAux fuel n) = n := by
  induction fuel with
  | zero => intro n hn; interval_cases n; rfl
  | succ fuel ih =>
    intro n hn
    by_cases h0 : n = 0
    · simp [natDigitsAux, h0, digitsVal]
    · have hdiv : n / 10 ≤ fuel := by
        have := Nat.div_lt_self (Nat.pos_of_ne_zero h0) (by norm_num : 1 < 10)
        omega
      rw [natDigitsAux, if_neg h0, digitsVal_append_singleton, ih (n / 10) hdiv,
        digitChar_val _ (Nat.mod_lt _ (by norm_num))]
      omega

theorem natDecimalDigits_isDigit (n : Nat) : ∀ c ∈ natDecimalDigits n, c.isDigit = true := by
  unfold natDecimalDigits
  by_cases h0 : n = 0
  · simp only [if_pos h0, List.mem_singleton]
    rintro c rfl; decide
  · rw [if_neg h0]
    exact natDigitsAux_isDigit n n le_rfl

theorem natDecimalDigits_val (n : Nat) : digitsVal (natDecimalDigits n) = n := by
  unfold natDecimalDigits
  by_cases h0 : n = 0
  · simp [h0, digitsVal]
  · rw [if_neg h0]
    exact natDigitsAux_val n n le_rfl

theorem natDecimalDigits_ne_nil (n : Nat) : natDecimalDigits n ≠ [] := by
  unfold natDecimalDigits
  by_cases h0 : n = 0
  · simp [h0]
  · rw [if_neg h0]
    cases hn : n with
    | zero => exact absurd hn h0
    | succ m =>
      rw [natDigitsAux, if_neg (hn ▸ h0)]
      simp

theorem takeWhile_append_all (p : Char → Bool) (xs ys : List Char)
    (h : ∀ x ∈ xs, p x = true) :
    (xs ++ ys).takeWhile p = xs ++ ys.takeWhile p := by
  induction xs with
  | nil => simp
  | cons x xs ih =>
    rw [List.cons_append, List.takeWhile_cons, if_pos (h x (by simp)), List.cons_append,
      ih (fun y hy => h y (by simp [hy]))]

theorem dropWhile_append_all (p : Char → Bool) (xs ys : List Char)
    (h : ∀ x ∈ xs, p x = true) :
    (xs ++ ys).dropWhile p = ys.dropWhile p := by
  induction xs with
  | nil => simp
  | cons x xs ih =>
    rw [List.cons_append, List.dropWhile_cons_of_pos (h x (by simp)),
      ih (fun y hy => h y (by simp [hy]))]

theorem get_snapshot_volume_name_toList (t : Int) (name : String) (h : 0 ≤ t) :
    (get_snapshot_volume_name t name).toList
      = 'v' :: 's' :: 'n' :: 'a' :: 'p' :: '-' ::
          (natDecimalDigits t.natAbs ++ '-' :: name.toList) := by
  unfold get_snapshot_volume_name intDecimalString
  rw [if_neg (by omega)]
  show (("vsnap-" ++ natDecimalString t.natAbs ++ "-" ++ name) : String).data = _
  rw [String.data_append, String.data_append, String.data_append]
  show ((['v', 's', 'n', 'a', 'p', '-'] ++ natDecimalDigits t.natAbs) ++ ['-']) ++ name.data = _
  simp

theorem matchSnapshotTag_encode (t : Int) (name : String) (h : 0 ≤ t)
    (hlen : 10 ≤ (natDecimalDigits t.natAbs).length) :
    matchSnapshotTag (get_snapshot_volume_name t name).toList
      = some (natDecimalDigits t.natAbs, name.toList) := by
  rw [get_snapshot_volume_name_toList t name h]
  show (let ds := (natDecimalDigits t.natAbs ++ '-' :: name.toList).takeWhile Char.isDigit
    if 10 ≤ ds.length then
      match (natDecimalDigits t.natAbs ++ '-' :: name.toList).dropWhile Char.isDigit with
      | '-' :: after => some (ds, after)
      | _ => none
    else none) = _
  rw [takeWhile_append_all _ _ _ (natDecimalDigits_isDigit _),
    dropWhile_append_all _ _ _ (natDecimalDigits_isDigit _)]
  have htw : ('-' :: name.toList).takeWhile Char.isDigit = [] := by
    rw [List.takeWhile_cons_of_neg]
    decide
  have hdw : ('-' :: name.toList).dropWhile Char.isDigit = '-' :: name.toList := by
    rw [List.dropWhile_cons_of_neg]
    decide
  rw [htw, hdw, List.append_nil]
  simp only [if_pos hlen]

/-! ## Naming round trip (C8) -/

/-- C8 (amended): for an i64 timestamp that is non-negative, has at least
10 decimal digits and stays within chrono's representable datetime range,
decoding the encoded volume name recovers the identity — the prefix strip
returns the name and extract_snapshot_datetime returns the timestamp. -/
theorem snapshot_volume_name_roundtrip (t : Int) (name : String)
    (hnn : 0 ≤ t) (h64 : t ≤ (I64_MAX : Nat)) (hlen : 10 ≤ (intDecimalString t).length)
    (hchrono : t ≤ chronoMaxTimestamp) :
    strip_snapshot_tag (get_snapshot_volume_name t name) = name ∧
    extract_snapshot_datetime (get_snapshot_volume_name t name) = .ok t := by
  have hmk : intDecimalString t = String.mk (natDecimalDigits t.natAbs) := by
    unfold intDecimalString natDecimalString
    rw [if_neg (by omega)]
  have hlen' : 10 ≤ (natDecimalDigits t.natAbs).length := by
    rw [hmk, String.length_mk] at hlen
    exact hlen
  have hmatch := matchSnapshotTag_encode t name hnn hlen'
  have habs : (t.natAbs : Int) = t := Int.natAbs_of_nonneg hnn
  have hbound : digitsVal (natDecimalDigits t.natAbs) ≤ I64_MAX := by
    rw [natDecimalDigits_val]
    have hImax : ((I64_MAX : Nat) : Int) = (9223372036854775807 : Int) := by decide
    omega
  have hparse : parse_i64 (natDecimalDigits t.natAbs) = .ok (Int.ofNat t.natAbs) := by
    unfold parse_i64
    rw [if_neg (natDecimalDigits_ne_nil _), if_pos hbound, natDecimalDigits_val]
  have hofnat : Int.ofNat t.natAbs = t := habs
  have hrange : chronoMinTimestamp ≤ (Int.ofNat t.natAbs) ∧
      (Int.ofNat t.natAbs) ≤ chronoMaxTimestamp := by
    rw [hofnat]
    have h1 : chronoMinTimestamp ≤ 0 := by decide
    exact ⟨by omega, hchrono⟩
  constructor
  · unfold strip_snapshot_tag
    rw [hmatch]
    rfl
  · unfold extract_snapshot_datetime
    rw [hmatch]
    simp only []
    rw [hparse]
    simp only []
    rw [if_pos hrange, hofnat]

/-- Witness for the C8 round trip at timestamp 1234567890, name db1. -/
theorem snapshot_volume_name_roundtrip_witness :
    strip_snapshot_tag (get_snapshot_volume_name 1234567890 "db1") = "db1" ∧
    extract_snapshot_datetime (get_snapshot_volume_name 1234567890 "db1") = .ok 1234567890 :=
  snapshot_volume_name_roundtrip 1234567890 "db1" (by decide) (by decide) (by decide) (by decide)

/-- C8 counterexample: timestamp 10^13 is non-negative and has 14 decimal
digits, yet extract_snapshot_datetime fails on the encoded name, because
chrono::DateTime::from_timestamp rejects seconds beyond year 262143 — the
claim as stated (any non-negative timestamp of at least 10 digits) is
false. -/
theorem snapshot_volume_name_roundtrip_counterexample :
    (0 : Int) ≤ 10000000000000 ∧ 10 ≤ (intDecimalString 10000000000000).length ∧
    strip_snapshot_tag (get_snapshot_volume_name 10000000000000 "a") = "a" ∧
    extract_snapshot_datetime (get_snapshot_volume_name 10000000000000 "a")
      = .error "Failed to parse timestamp from volume name: vsnap-10000000000000-a" := by
  decide

/-! ## Filesystem lemmas (for C1, C5, C10) -/

theorem exceptOkBind {α β : Type} (x : α) (f : α → Except String β) :
    (Except.ok x : Except String α) >>= f = f x := rfl

theorem lookupFs_append_of_some (a b : Fs) (p : FsPath) (k : NodeKind)
    (h : lookupFs a p = some k) : lookupFs (a ++ b) p = some k := by
  induction a with
  | nil => simp [lookupFs] at h
  | cons e a ih =>
    rw [List.cons_append]
    unfold lookupFs at h ⊢
    by_cases he : e.1 = p
    · rwa [if_pos he] at h ⊢
    · rw [if_neg he] at h ⊢
      exact ih h

theorem lookupFs_append_of_none (a b : Fs) (p : FsPath)
    (h : lookupFs a p = none) : lookupFs (a ++ b) p = lookupFs b p := by
  induction a with
  | nil => simp
  | cons e a ih =>
    rw [List.cons_append]
    simp only [lookupFs] at h ⊢
    by_cases he : e.1 = p
    · rw [if_pos he] at h; cases h
    · rw [if_neg he] at h ⊢
      exact ih h

theorem lookupFs_eq_none_of_not_mem (t : Fs) (p : FsPath)
    (h : p ∉ t.map Prod.fst) : lookupFs t p = none := by
  induction t with
  | nil => rfl
  | cons e t ih =>
    simp only [List.map_cons, List.mem_cons, not_or] at h
    unfold lookupFs
    rw [if_neg (fun he => h.1 he.symm)]
    exact ih h.2

theorem lookupFs_of_mem_nodup (t : Fs) (p : FsPath) (k : NodeKind)
    (hnd : (t.map Prod.fst).Nodup) (hmem : (p, k) ∈ t) : lookupFs t p = some k := by
  induction t with
  | nil => simp at hmem
  | cons e t ih =>
    simp only [List.map_cons, List.nodup_cons] at hnd
    rcases List.mem_cons.mp hmem with rfl | hmem
    · unfold lookupFs; rw [if_pos rfl]
    · unfold lookupFs
      rw [if_neg ?_]
      · exact ih hnd.2 hmem
      · intro he
        exact hnd.1 (he ▸ List.mem_map_of_mem Prod.fst hmem)

theorem lookupFs_rerootAt (dest : FsPath) (t : Fs) (p : FsPath) :
    lookupFs (rerootAt dest t) (dest ++ p) = lookupFs t p := by
  induction t with
  | nil => rfl
  | cons e t ih =>
    simp only [rerootAt, List.map_cons] at ih ⊢
    simp only [lookupFs]
    by_cases he : e.1 = p
    · rw [if_pos (show (dest ++ e.1, e.2).1 = dest ++ p by rw [he]), if_pos he]
    · rw [if_neg (fun hc => he (List.append_cancel_left hc)), if_neg he]
      exact ih

theorem rerootAt_map_fst (dest : FsPath) (t : Fs) :
    (rerootAt dest t).map Prod.fst = t.map (fun e => dest ++ e.1) := by
  unfold rerootAt
  rw [List.map_map]
  rfl

theorem rerootAt_append (dest : FsPath) (a b : Fs) :
    rerootAt dest (a ++ b) = rerootAt dest a ++ rerootAt dest b := by
  unfold rerootAt
  exact List.map_append _ a b

theorem parentOf_append (d p : FsPath) (h : p ≠ []) :
    parentOf (d ++ p) = d ++ parentOf p := by
  rcases List.eq_nil_or_concat p with rfl | ⟨q, a, rfl⟩
  · exact absurd rfl h
  · unfold parentOf
    simp [List.concat_eq_append, ← List.append_assoc]

/-- The state a fold runs against: the base filesystem holds the
destination chain as directories and nothing strictly below the
destination. -/
def CleanBase (base : Fs) (dest : FsPath) : Prop :=
  (∀ i, i < dest.length → lookupFs base (dest.take (i + 1)) = some NodeKind.dir) ∧
  (∀ e ∈ base, ¬(dest <+: e.1 ∧ e.1 ≠ dest))

theorem cleanBase_lookup_under_none (base : Fs) (dest : FsPath) (p : FsPath)
    (hbase : CleanBase base dest) (hne : p ≠ []) :
    lookupFs base (dest ++ p) = none := by
  apply lookupFs_eq_none_of_not_mem
  intro hmem
  obtain ⟨e, he, hfst⟩ := List.mem_map.mp hmem
  refine hbase.2 e he ⟨hfst ▸ List.prefix_append dest p, ?_⟩
  rw [hfst]
  intro hdp
  have := congrArg List.length hdp
  simp only [List.length_append] at this
  exact hne (List.length_eq_zero.mp (by omega))

/-- The invariant carried over the already-processed walk prefix. -/
def GoodSeen (seen : Fs) : Prop :=
  (seen.map Prod.fst).Nodup ∧
  (∀ e ∈ seen, e.1 ≠ []) ∧
  (∀ e ∈ seen, ∀ i, 0 < i → i < e.1.length → (e.1.take i, NodeKind.dir) ∈ seen)

theorem goodSeen_nil : GoodSeen [] := by
  refine ⟨List.nodup_nil, ?_, ?_⟩ <;> intro e he <;> simp at he

/-- Every nonempty proper prefix of the next walk entry's path is already
recorded as a directory. -/
theorem ancestors_mem (seen : Fs) (p : FsPath) (hg : GoodSeen seen)
    (hparent : parentOf p = [] ∨ (parentOf p, NodeKind.dir) ∈ seen) :
    ∀ j, 0 < j → j < p.length → (p.take j, NodeKind.dir) ∈ seen := by
  intro j hj0 hjlen
  rcases hparent with hp | hp
  · exfalso
    have := congrArg List.length hp
    simp only [parentOf, List.length_dropLast, List.length_nil] at this
    omega
  · have hplen : p.dropLast.length = p.length - 1 := List.length_dropLast p
    by_cases hj : j = p.length - 1
    · have heq : p.take j = parentOf p := by
        unfold parentOf
        rw [List.dropLast_eq_take, hj]
      rw [heq]
      exact hp
    · have htake : p.take j = (parentOf p).take j := by
        unfold parentOf
        rw [List.dropLast_eq_take, List.take_take]
        congr 1
        omega
      rw [htake]
      refine hg.2.2 (parentOf p, NodeKind.dir) hp j hj0 ?_
      simp only [parentOf, List.length_dropLast]
      omega

theorem goodSeen_append (seen : Fs) (e : FsPath × NodeKind) (hg : GoodSeen seen)
    (hne : e.1 ≠ []) (hfresh : e.1 ∉ seen.map Prod.fst)
    (hparent : parentOf e.1 = [] ∨ (parentOf e.1, NodeKind.dir) ∈ seen) :
    GoodSeen (seen ++ [e]) := by
  obtain ⟨hnd, hnnil, hanc⟩ := hg
  refine ⟨?_, ?_, ?_⟩
  · rw [List.map_append, List.nodup_append]
    refine ⟨hnd, by simp, ?_⟩
    intro x hx hy
    simp only [List.map_cons, List.map_nil, List.mem_singleton] at hy
    exact hfresh (hy ▸ hx)
  · intro f hf
    rcases List.mem_append.mp hf with hf | hf
    · exact hnnil f hf
    · simp only [List.mem_singleton] at hf
      exact hf ▸ hne
  · intro f hf i hi0 hilen
    rcases List.mem_append.mp hf with hf | hf
    · exact List.mem_append_left _ (hanc f hf i hi0 hilen)
    · simp only [List.mem_singleton] at hf
      subst hf
      exact List.mem_append_left _
        (ancestors_mem seen f.1 ⟨hnd, hnnil, hanc⟩ hparent i hi0 hilen)

theorem exceptErrBind {α β : Type} (msg : String) (f : α → Except String β) :
    (Except.error msg : Except String α) >>= f = .error msg := rfl

theorem state_lookup_none (base : Fs) (dest : FsPath) (seen : Fs) (p : FsPath)
    (hbase : CleanBase base dest) (hfresh : p ∉ seen.map Prod.fst) (hne : p ≠ []) :
    lookupFs (base ++ rerootAt dest seen) (dest ++ p) = none := by
  rw [lookupFs_append_of_none _ _ _ (cleanBase_lookup_under_none base dest p hbase hne),
    lookupFs_rerootAt]
  exact lookupFs_eq_none_of_not_mem seen p hfresh

theorem state_isDir_dest_take (base : Fs) (dest : FsPath) (seen : Fs) (i : Nat)
    (hbase : CleanBase base dest) (hi : i < dest.length) :
    isDirAt (base ++ rerootAt dest seen) (dest.take (i + 1)) :=
  Or.inr (lookupFs_append_of_some _ _ _ _ (hbase.1 i hi))

theorem state_isDir_dest (base : Fs) (dest : FsPath) (seen : Fs)
    (hbase : CleanBase base dest) :
    isDirAt (base ++ rerootAt dest seen) dest := by
  by_cases hd : dest = []
  · exact Or.inl hd
  · refine Or.inr (lookupFs_append_of_some _ _ _ _ ?_)
    have hlen : 0 < dest.length := List.length_pos.mpr hd
    have := hbase.1 (dest.length - 1) (by omega)
    rwa [show dest.length - 1 + 1 = dest.length by omega, List.take_length] at this

theorem state_isDir_seen (base : Fs) (dest : FsPath) (seen : Fs) (q : FsPath)
    (hbase : CleanBase base dest) (hg : GoodSeen seen)
    (hq : (q, NodeKind.dir) ∈ seen) :
    isDirAt (base ++ rerootAt dest seen) (dest ++ q) := by
  have hqne : q ≠ [] := hg.2.1 (q, NodeKind.dir) hq
  refine Or.inr ?_
  rw [lookupFs_append_of_none _ _ _ (cleanBase_lookup_under_none base dest q hbase hqne),
    lookupFs_rerootAt]
  exact lookupFs_of_mem_nodup seen q _ hg.1 hq

theorem state_parent_isDir (base : Fs) (dest : FsPath) (seen : Fs) (p : FsPath)
    (hbase : CleanBase base dest) (hg : GoodSeen seen) (hne : p ≠ [])
    (hparent : parentOf p = [] ∨ (parentOf p, NodeKind.dir) ∈ seen) :
    isDirAt (base ++ rerootAt dest seen) (parentOf (dest ++ p)) := by
  rw [parentOf_append dest p hne]
  rcases hparent with hp | hp
  · rw [hp, List.append_nil]
    exact state_isDir_dest base dest seen hbase
  · exact state_isDir_seen base dest seen (parentOf p) hbase hg hp

theorem not_isDirAt_of_lookup_none (fs : Fs) (p : FsPath) (hne : p ≠ [])
    (h : lookupFs fs p = none) : ¬ isDirAt fs p := by
  rintro (rfl | hdir)
  · exact hne rfl
  · rw [h] at hdir
    cases hdir

/-! ### One-operation step lemmas in a good state -/

theorem create_dir_once_step (base : Fs) (dest : FsPath) (seen : Fs) (p : FsPath)
    (hbase : CleanBase base dest) (hg : GoodSeen seen) (hne : p ≠ [])
    (hfresh : p ∉ seen.map Prod.fst)
    (hparent : parentOf p = [] ∨ (parentOf p, NodeKind.dir) ∈ seen) :
    create_dir_once (base ++ rerootAt dest seen) (dest ++ p)
      = .ok (base ++ rerootAt dest seen ++ [(dest ++ p, NodeKind.dir)]) := by
  have hnone := state_lookup_none base dest seen p hbase hfresh hne
  have hpne : dest ++ p ≠ [] := by simp [hne]
  unfold create_dir_once
  rw [if_neg (not_isDirAt_of_lookup_none _ _ hpne hnone), hnone,
    if_neg (by simp), if_pos (state_parent_isDir base dest seen p hbase hg hne hparent)]

theorem write_file_step (base : Fs) (dest : FsPath) (seen : Fs) (p : FsPath)
    (contents : List Nat)
    (hbase : CleanBase base dest) (hg : GoodSeen seen) (hne : p ≠ [])
    (hfresh : p ∉ seen.map Prod.fst)
    (hparent : parentOf p = [] ∨ (parentOf p, NodeKind.dir) ∈ seen) :
    write_file (base ++ rerootAt dest seen) (dest ++ p) contents
      = .ok (base ++ rerootAt dest seen ++ [(dest ++ p, NodeKind.file contents)]) := by
  have hnone := state_lookup_none base dest seen p hbase hfresh hne
  have hpne : dest ++ p ≠ [] := by simp [hne]
  unfold write_file
  rw [if_neg hpne,
    if_neg (not_not_intro (state_parent_isDir base dest seen p hbase hg hne hparent)), hnone]

theorem make_symlink_step (base : Fs) (dest : FsPath) (seen : Fs) (p : FsPath)
    (target : String)
    (hbase : CleanBase base dest) (hg : GoodSeen seen) (hne : p ≠ [])
    (hfresh : p ∉ seen.map Prod.fst)
    (hparent : parentOf p = [] ∨ (parentOf p, NodeKind.dir) ∈ seen) :
    make_symlink (base ++ rerootAt dest seen) (dest ++ p) target
      = .ok (base ++ rerootAt dest seen ++ [(dest ++ p, NodeKind.symlink target)]) := by
  have hnone := state_lookup_none base dest seen p hbase hfresh hne
  have hpne : dest ++ p ≠ [] := by simp [hne]
  unfold make_symlink
  rw [if_neg hpne, hnone, if_neg (by simp),
    if_pos (state_parent_isDir base dest seen p hbase hg hne hparent)]

theorem create_dir_once_of_isDir (fs : Fs) (q : FsPath) (h : isDirAt fs q) :
    create_dir_once fs q = .ok fs := by
  unfold create_dir_once
  rw [if_pos h]

theorem range_foldlM_create_ok (fs : Fs) (q : FsPath) :
    ∀ n, (∀ i, i < n → isDirAt fs (q.take (i + 1))) →
      (List.range n).foldlM (fun fs2 i => create_dir_once fs2 (q.take (i + 1))) fs = .ok fs := by
  intro n
  induction n with
  | zero => intro _; rfl
  | succ n ih =>
    intro h
    rw [List.range_succ, List.foldlM_append, ih (fun i hi => h i (by omega)), exceptOkBind]
    simp only [List.foldlM_cons, List.foldlM_nil]
    rw [create_dir_once_of_isDir fs _ (h n (by omega)), exceptOkBind]
    rfl

theorem create_dir_all_of_chain (fs : Fs) (q : FsPath)
    (h : ∀ i, i < q.length → isDirAt fs (q.take (i + 1))) :
    create_dir_all fs q = .ok fs := by
  unfold create_dir_all
  exact range_foldlM_create_ok fs q q.length h

theorem create_dir_all_step_append (fs : Fs) (q : FsPath) (hne : q ≠ [])
    (hanc : ∀ i, i + 1 < q.length → isDirAt fs (q.take (i + 1)))
    (hparent : isDirAt fs (parentOf q))
    (hnone : lookupFs fs q = none) :
    create_dir_all fs q = .ok (fs ++ [(q, NodeKind.dir)]) := by
  unfold create_dir_all
  obtain ⟨m, hm⟩ : ∃ m, q.length = m + 1 := by
    cases hq : q with
    | nil => exact absurd hq hne
    | cons a l => exact ⟨l.length, by simp⟩
  rw [hm, List.range_succ, List.foldlM_append,
    range_foldlM_create_ok fs q m (fun i hi => hanc i (by omega)), exceptOkBind]
  simp only [List.foldlM_cons, List.foldlM_nil]
  have htake : q.take (m + 1) = q := by
    rw [← hm]
    exact List.take_length q
  have hstep : create_dir_once fs q = .ok (fs ++ [(q, NodeKind.dir)]) := by
    unfold create_dir_once
    rw [if_neg (not_isDirAt_of_lookup_none fs q hne hnone), hnone, if_neg (by simp),
      if_pos hparent]
  rw [htake, hstep, exceptOkBind]
  rfl

/-! ### The generic fold over a well-formed walk -/

def StepOk (step : Fs → (FsPath × NodeKind) → Except String Fs)
    (dest : FsPath) (base : Fs) : Prop :=
  ∀ seen e, GoodSeen seen →
    e.1 ≠ [] → cleanPath e.1 → e.1 ∉ seen.map Prod.fst →
    (parentOf e.1 = [] ∨ (parentOf e.1, NodeKind.dir) ∈ seen) →
    step (base ++ rerootAt dest seen) e
      = .ok (base ++ rerootAt dest seen ++ [(dest ++ e.1, e.2)])

theorem foldlM_stepOk (step : Fs → (FsPath × NodeKind) → Except String Fs)
    (dest : FsPath) (base : Fs) (hstep : StepOk step dest base) :
    ∀ (rest seen : Fs), GoodSeen seen → WfWalk seen rest →
      rest.foldlM step (base ++ rerootAt dest seen)
        = .ok (base ++ rerootAt dest (seen ++ rest)) := by
  intro rest
  induction rest with
  | nil =>
    intro seen _ _
    rw [List.append_nil, List.foldlM_nil]
    rfl
  | cons e rest ih =>
    intro seen hg hwf
    obtain ⟨hne, hclean, hfresh, hparent, hwf2⟩ := hwf
    rw [List.foldlM_cons, hstep seen e hg hne hclean hfresh hparent, exceptOkBind]
    have h2 := ih (seen ++ [e]) (goodSeen_append seen e hg hne hfresh hparent) hwf2
    rw [rerootAt_append, ← List.append_assoc] at h2
    have hsingle : rerootAt dest [e] = [(dest ++ e.1, e.2)] := rfl
    rw [hsingle] at h2
    rw [h2, rerootAt_append, rerootAt_append]
    simp [rerootAt, List.append_assoc]

theorem cleanPath_append (a b : FsPath) (ha : cleanPath a) (hb : cleanPath b) :
    cleanPath (a ++ b) := by
  intro c hc
  rcases List.mem_append.mp hc with hc | hc
  · exact ha c hc
  · exact hb c hc

theorem normalizeComponents_aux (cs : List String) :
    ∀ acc, cleanPath cs →
      cs.foldl (fun acc c =>
        if c = ".." then acc.dropLast else if c = "." then acc else acc ++ [c]) acc
        = acc ++ cs := by
  induction cs with
  | nil => intro acc _; simp
  | cons c cs ih =>
    intro acc h
    obtain ⟨h1, h2, h3⟩ := h c (by simp)
    simp only [List.foldl_cons, if_neg h3, if_neg h2]
    rw [ih (acc ++ [c]) (fun x hx => h x (by simp [hx]))]
    simp

theorem normalizeComponents_clean (cs : List String) (h : cleanPath cs) :
    normalizeComponents cs = cs := by
  unfold normalizeComponents
  rw [normalizeComponents_aux cs [] h]
  simp

theorem state_take_isDir (base : Fs) (dest : FsPath) (seen : Fs) (p : FsPath)
    (hbase : CleanBase base dest) (hg : GoodSeen seen)
    (hparent : parentOf p = [] ∨ (parentOf p, NodeKind.dir) ∈ seen) :
    ∀ i, i + 1 < (dest ++ p).length →
      isDirAt (base ++ rerootAt dest seen) ((dest ++ p).take (i + 1)) := by
  intro i hi
  rw [List.take_append_eq_append_take]
  by_cases hcase : i + 1 ≤ dest.length
  · rw [show i + 1 - dest.length = 0 by omega, List.take_zero, List.append_nil]
    exact state_isDir_dest_take base dest seen i hbase (by omega)
  · rw [List.take_of_length_le (by omega)]
    rw [List.length_append] at hi
    have hmem : (p.take (i + 1 - dest.length), NodeKind.dir) ∈ seen :=
      ancestors_mem seen p hg hparent (i + 1 - dest.length) (by omega) (by omega)
    exact state_isDir_seen base dest seen (p.take (i + 1 - dest.length)) hbase hg hmem

theorem copy_entry_stepOk (base : Fs) (dest : FsPath) (hbase : CleanBase base dest) :
    StepOk (copy_entry dest) dest base := by
  intro seen e hg hne hclean hfresh hparent
  obtain ⟨p, k⟩ := e
  have hnone := state_lookup_none base dest seen p hbase hfresh hne
  have hpdir := state_parent_isDir base dest seen p hbase hg hne hparent
  have hpne : dest ++ p ≠ [] := by simp [hne]
  cases k with
  | dir =>
    show create_dir_all _ (dest ++ p) = _
    exact create_dir_all_step_append _ _ hpne
      (state_take_isDir base dest seen p hbase hg hparent) hpdir hnone
  | file contents =>
    exact write_file_step base dest seen p contents hbase hg hne hfresh hparent
  | symlink target =>
    exact make_symlink_step base dest seen p target hbase hg hne hfresh hparent

theorem unpack_compress_stepOk (base : Fs) (dest : FsPath) (hbase : CleanBase base dest)
    (hdest : cleanPath dest) :
    StepOk (fun fs e => unpack_entry dest fs
      (match e.2 with
        | NodeKind.symlink target => TarEntry.symlink ⟨false, e.1⟩ target
        | NodeKind.dir => TarEntry.dir ⟨false, e.1⟩
        | NodeKind.file contents => TarEntry.file ⟨false, e.1⟩ contents)) dest base := by
  intro seen e hg hne hclean hfresh hparent
  obtain ⟨p, k⟩ := e
  have hres : resolveTarPath dest ⟨false, p⟩ = dest ++ p := by
    unfold resolveTarPath
    simp only [Bool.false_eq_true, if_false]
    exact normalizeComponents_clean _ (cleanPath_append dest p hdest hclean)
  cases k with
  | dir =>
    show create_dir_once (base ++ rerootAt dest seen) (resolveTarPath dest ⟨false, p⟩)
      = .ok (base ++ rerootAt dest seen ++ [(dest ++ p, NodeKind.dir)])
    rw [hres]
    exact create_dir_once_step base dest seen p hbase hg hne hfresh hparent
  | file contents =>
    show write_file (base ++ rerootAt dest seen) (resolveTarPath dest ⟨false, p⟩) contents
      = .ok (base ++ rerootAt dest seen ++ [(dest ++ p, NodeKind.file contents)])
    rw [hres]
    exact write_file_step base dest seen p contents hbase hg hne hfresh hparent
  | symlink target =>
    show make_symlink (base ++ rerootAt dest seen) (resolveTarPath dest ⟨false, p⟩) target
      = .ok (base ++ rerootAt dest seen ++ [(dest ++ p, NodeKind.symlink target)])
    rw [hres]
    exact make_symlink_step base dest seen p target hbase hg hne hfresh hparent

/-! ### The two restore paths reproduce the tree -/

theorem dirChain_map_fst (dest : FsPath) :
    (dirChain dest).map Prod.fst = (List.range dest.length).map (fun i => dest.take (i + 1)) := by
  unfold dirChain
  rw [List.map_map]
  rfl

theorem cleanBase_dirChain (dest : FsPath) : CleanBase (dirChain dest) dest := by
  constructor
  · intro i hi
    apply lookupFs_of_mem_nodup
    · rw [dirChain_map_fst]
      refine List.Nodup.map_on ?_ (List.nodup_range _)
      intro x hx y hy hxy
      have hlx := congrArg List.length hxy
      rw [List.length_take, List.length_take] at hlx
      rw [List.mem_range] at hx hy
      omega
    · exact List.mem_map.mpr ⟨i, List.mem_range.mpr hi, rfl⟩
  · intro e he hcontra
    obtain ⟨i, hi, rfl⟩ := List.mem_map.mp he
    obtain ⟨hpre, hneq⟩ := hcontra
    have hpre2 : dest <+: dest.take (i + 1) := hpre
    have hneq2 : dest.take (i + 1) ≠ dest := hneq
    have h1 : dest.take (i + 1) <+: dest := List.take_prefix _ _
    have hlen1 : dest.length ≤ (dest.take (i + 1)).length := hpre2.length_le
    have hlen2 : (dest.take (i + 1)).length ≤ dest.length := h1.length_le
    exact hneq2 (hpre2.eq_of_length (by omega)).symm

theorem cleanBase_nil : CleanBase [] [] :=
  ⟨fun i hi => by simp at hi, fun e he => by simp at he⟩

theorem rerootAt_nil_dest (t : Fs) : rerootAt [] t = t := by
  unfold rerootAt
  induction t with
  | nil => rfl
  | cons e t ih => rw [List.map_cons, List.nil_append, ih]

theorem decompress_compress_roundtrip (source : Fs) (dest : FsPath) (base : Fs)
    (hwf : WellFormedFs source) (hbase : CleanBase base dest) (hdest : cleanPath dest) :
    decompress_tar (compress_dir source) dest base = .ok (base ++ rerootAt dest source) := by
  unfold decompress_tar compress_dir
  rw [List.foldlM_map]
  have h := foldlM_stepOk _ dest base (unpack_compress_stepOk base dest hbase hdest)
    source [] goodSeen_nil hwf
  rw [show rerootAt dest ([] : Fs) = [] from rfl, List.append_nil, List.nil_append] at h
  exact h

theorem copy_dir_roundtrip (source : Fs) (dest : FsPath) (base : Fs)
    (hwf : WellFormedFs source) (hbase : CleanBase base dest) :
    copy_dir source dest base = .ok (base ++ rerootAt dest source) := by
  unfold copy_dir
  have hchain : create_dir_all base dest = .ok base :=
    create_dir_all_of_chain base dest (fun i hi => Or.inr (hbase.1 i hi))
  rw [hchain, exceptOkBind, List.foldlM_cons]
  have hroot : copy_entry dest base ([], NodeKind.dir) = .ok base := by
    show create_dir_all base (dest ++ []) = .ok base
    rw [List.append_nil]
    exact hchain
  rw [hroot, exceptOkBind]
  have h := foldlM_stepOk _ dest base (copy_entry_stepOk base dest hbase)
    source [] goodSeen_nil hwf
  rw [show rerootAt dest ([] : Fs) = [] from rfl, List.append_nil, List.nil_append] at h
  exact h

theorem wfWalk_paths_ne_nil (rest : Fs) :
    ∀ seen, WfWalk seen rest → ∀ e ∈ rest, e.1 ≠ [] := by
  induction rest with
  | nil => intro seen _ e he; simp at he
  | cons f rest ih =>
    intro seen hwf e he
    obtain ⟨hne, _, _, _, hwf2⟩ := hwf
    rcases List.mem_cons.mp he with rfl | he
    · exact hne
    · exact ih (seen ++ [f]) hwf2 e he

theorem subtreeAt_append (d : FsPath) (a b : Fs) :
    subtreeAt d (a ++ b) = subtreeAt d a ++ subtreeAt d b :=
  List.filterMap_append a b _

theorem subtreeAt_dirChain (dest : FsPath) : subtreeAt dest (dirChain dest) = [] := by
  unfold subtreeAt dirChain
  rw [List.filterMap_map]
  rw [List.filterMap_eq_nil_iff]
  intro i hi
  rw [Function.comp_apply, if_neg]
  rintro ⟨hpre, hneq⟩
  have hpre2 : dest <+: dest.take (i + 1) := hpre
  have hneq2 : dest.take (i + 1) ≠ dest := hneq
  have h1 : dest.take (i + 1) <+: dest := List.take_prefix _ _
  have hlen1 : dest.length ≤ (dest.take (i + 1)).length := hpre2.length_le
  have hlen2 : (dest.take (i + 1)).length ≤ dest.length := h1.length_le
  exact hneq2 (hpre2.eq_of_length (by omega)).symm

theorem subtreeAt_rerootAt (dest : FsPath) :
    ∀ (t : Fs), (∀ e ∈ t, e.1 ≠ []) → subtreeAt dest (rerootAt dest t) = t := by
  intro t
  induction t with
  | nil => intro _; rfl
  | cons e t ih =>
    intro h
    have hcond : dest <+: (dest ++ e.1) ∧ dest ++ e.1 ≠ dest := by
      refine ⟨List.prefix_append _ _, ?_⟩
      intro hc
      have hl := congrArg List.length hc
      rw [List.length_append] at hl
      exact h e (List.mem_cons_self _ _) (List.length_eq_zero.mp (by omega))
    have htail := ih (fun x hx => h x (List.mem_cons_of_mem _ hx))
    have hstep : subtreeAt dest (rerootAt dest (e :: t))
        = ((dest ++ e.1).drop dest.length, e.2) :: subtreeAt dest (rerootAt dest t) := by
      show List.filterMap _ ((dest ++ e.1, e.2) :: rerootAt dest t) = _
      rw [List.filterMap_cons, if_pos hcond]
      rfl
    rw [hstep, List.drop_left, htail]

/-- C1: snapshot on a well-formed tree followed by restore into an empty
destination (the destination directory exists and holds nothing)
reproduces the tree exactly — identical relative paths, node kinds
(directory / regular file / symlink), symlink target texts, and file
contents — in both the compressed and the uncompressed mode. -/
theorem snapshot_restore_roundtrip (source : Fs) (dest : FsPath) (compress : Bool)
    (hwf : WellFormedFs source) (hdest : cleanPath dest) :
    ∃ snap, snapshot source compress = .ok snap ∧
      restore snap dest (dirChain dest) = .ok (dirChain dest ++ rerootAt dest source) ∧
      subtreeAt dest (dirChain dest ++ rerootAt dest source) = source := by
  have hsub : subtreeAt dest (dirChain dest ++ rerootAt dest source) = source := by
    rw [subtreeAt_append, subtreeAt_dirChain,
      subtreeAt_rerootAt dest source (wfWalk_paths_ne_nil source [] hwf), List.nil_append]
  cases compress with
  | true =>
    refine ⟨_, rfl, ?_, hsub⟩
    show decompress_tar (compress_dir source) dest (dirChain dest) = _
    exact decompress_compress_roundtrip source dest (dirChain dest) hwf
      (cleanBase_dirChain dest) hdest
  | false =>
    have hself : copy_dir source [] [] = .ok source := by
      have h := copy_dir_roundtrip source [] [] hwf cleanBase_nil
      rwa [rerootAt_nil_dest, List.nil_append] at h
    refine ⟨⟨some (calculate_total_size source), none, some source⟩, ?_, ?_, hsub⟩
    · show (copy_dir source [] [] >>= fun files =>
        Except.ok (SnapshotDir.mk (some (calculate_total_size source)) none (some files))) = _
      rw [hself, exceptOkBind]
    · show copy_dir source dest (dirChain dest) = _
      exact copy_dir_roundtrip source dest (dirChain dest) hwf (cleanBase_dirChain dest)

/-- Witness for C1: a tree with a nested file, an empty directory and a
symlink, snapshotted and restored below dst in both modes. -/
theorem snapshot_restore_roundtrip_witness :
    (∃ snap,
      snapshot [(["a"], NodeKind.dir), (["a", "f"], NodeKind.file [104, 105]),
          (["e"], NodeKind.dir), (["l"], NodeKind.symlink "a/f")] true = .ok snap ∧
      restore snap ["dst"] (dirChain ["dst"])
        = .ok (dirChain ["dst"] ++ rerootAt ["dst"]
            [(["a"], NodeKind.dir), (["a", "f"], NodeKind.file [104, 105]),
             (["e"], NodeKind.dir), (["l"], NodeKind.symlink "a/f")]) ∧
      subtreeAt ["dst"] (dirChain ["dst"] ++ rerootAt ["dst"]
            [(["a"], NodeKind.dir), (["a", "f"], NodeKind.file [104, 105]),
             (["e"], NodeKind.dir), (["l"], NodeKind.symlink "a/f")])
        = [(["a"], NodeKind.dir), (["a", "f"], NodeKind.file [104, 105]),
           (["e"], NodeKind.dir), (["l"], NodeKind.symlink "a/f")]) ∧
    (∃ snap,
      snapshot [(["a"], NodeKind.dir), (["a", "f"], NodeKind.file [104, 105]),
          (["e"], NodeKind.dir), (["l"], NodeKind.symlink "a/f")] false = .ok snap ∧
      restore snap ["dst"] (dirChain ["dst"])
        = .ok (dirChain ["dst"] ++ rerootAt ["dst"]
            [(["a"], NodeKind.dir), (["a", "f"], NodeKind.file [104, 105]),
             (["e"], NodeKind.dir), (["l"], NodeKind.symlink "a/f")]) ∧
      subtreeAt ["dst"] (dirChain ["dst"] ++ rerootAt ["dst"]
            [(["a"], NodeKind.dir), (["a", "f"], NodeKind.file [104, 105]),
             (["e"], NodeKind.dir), (["l"], NodeKind.symlink "a/f")])
        = [(["a"], NodeKind.dir), (["a", "f"], NodeKind.file [104, 105]),
           (["e"], NodeKind.dir), (["l"], NodeKind.symlink "a/f")]) :=
  ⟨snapshot_restore_roundtrip _ ["dst"] true (by decide) (by decide),
   snapshot_restore_roundtrip _ ["dst"] false (by decide) (by decide)⟩

/-- C10: the total size snapshot computes, uses as the progress
denominator and persists in the metadata equals the sum of the byte
lengths of the regular files of the walked tree; directory and symlink
entries contribute zero and a symlink's target contents are never
counted (the walk stores only the target text). -/
theorem total_size_counts_regular_files (source : Fs) (compress : Bool) :
    calculate_total_size source = regular_file_byte_total source ∧
    snapshot_progress_total source = calculate_total_size source ∧
    (∀ snap, snapshot source compress = .ok snap →
      snap.metadata_total_size = some (calculate_total_size source)) := by
  refine ⟨?_, rfl, ?_⟩
  · unfold calculate_total_size regular_file_byte_total
    induction source with
    | nil => rfl
    | cons e t ih =>
      cases he : e.2 <;>
        simp [List.filterMap_cons, he, ih]
  · intro snap h
    cases compress with
    | true =>
      have heq : snapshot source true
          = .ok { metadata_total_size := some (calculate_total_size source),
                  tar_zst := some (compress_dir source),
                  files_dir := none } := rfl
      rw [heq, Except.ok.injEq] at h
      rw [← h]
    | false =>
      have heq : snapshot source false
          = (copy_dir source [] [] >>= fun files =>
              Except.ok { metadata_total_size := some (calculate_total_size source),
                          tar_zst := none,
                          files_dir := some files }) := rfl
      rw [heq] at h
      cases hc : copy_dir source [] [] with
      | error msg =>
        rw [hc, exceptErrBind] at h
        cases h
      | ok files =>
        rw [hc, exceptOkBind, Except.ok.injEq] at h
        rw [← h]

/-- Witness for C10 on a one-file tree, uncompressed mode. -/
theorem total_size_counts_regular_files_witness :
    (⟨some 3, none, some [(["f"], NodeKind.file [1, 2, 3])]⟩ : SnapshotDir).metadata_total_size
      = some (calculate_total_size [(["f"], NodeKind.file [1, 2, 3])]) :=
  (total_size_counts_regular_files [(["f"], NodeKind.file [1, 2, 3])] false).2.2
    ⟨some 3, none, some [(["f"], NodeKind.file [1, 2, 3])]⟩ (by decide)

/-- C5 counterexample: an archive entry whose path is `../evil` is
unpacked at destDir joined with that path, i.e. outside destDir — the
extraction neither rejects nor sanitizes it, so the claim that no entry of
any input archive causes a write outside destDir is false. -/
theorem decompress_tar_escape_counterexample :
    decompress_tar [TarEntry.file ⟨false, ["..", "evil"]⟩ [42]] ["top", "dest"]
        (dirChain ["top", "dest"])
      = .ok (dirChain ["top", "dest"] ++ [(["top", "evil"], NodeKind.file [42])]) ∧
    ¬ ["top", "dest"] <+: ["top", "evil"] ∧
    (["top", "evil"], NodeKind.file [42]) ∉ dirChain ["top", "dest"] := by
  decide

/-- C5 (amended): decompress_tar joins each entry's path onto destDir and
unpacks it with no rejection or sanitization of escaping paths.  For every
destination directory (nonempty, dot-free components) and every well-formed
entry name whose placement beside the destination does not coincide with
the destination itself, an archive entry whose path is `../name` extracts
successfully and creates the file next to the destination directory,
outside destDir.  The run stays entirely on the model's exact region: the
starting state is the destination chain (directories only, no symlinks),
the write target is fresh and its parent is a real directory, so model and
source agree step for step. -/
theorem decompress_tar_escape (dest : FsPath) (name : String) (contents : List Nat)
    (hdest : cleanPath dest) (hne : dest ≠ []) (hname : cleanComponent name)
    (hbeside : parentOf dest ++ [name] ≠ dest) :
    decompress_tar [TarEntry.file ⟨false, ["..", name]⟩ contents] dest (dirChain dest)
      = .ok (dirChain dest ++ [(parentOf dest ++ [name], NodeKind.file contents)]) ∧
    ¬ dest <+: parentOf dest ++ [name] := by
  have hdlen : 0 < dest.length := List.length_pos.mpr hne
  have hlen : (parentOf dest ++ [name]).length = dest.length := by
    simp only [parentOf, List.length_append, List.length_dropLast, List.length_cons,
      List.length_nil]
    omega
  obtain ⟨hn1, hn2, hn3⟩ := hname
  constructor
  · have hres : resolveTarPath dest ⟨false, ["..", name]⟩ = parentOf dest ++ [name] := by
      unfold resolveTarPath
      simp only [Bool.false_eq_true, if_false]
      unfold normalizeComponents
      rw [show dest ++ ["..", name] = dest ++ [".."] ++ [name] from by
        rw [List.append_assoc]; rfl]
      rw [List.foldl_append, List.foldl_append, normalizeComponents_aux dest [] hdest,
        List.nil_append]
      simp only [List.foldl_cons, List.foldl_nil, if_pos rfl, if_neg hn3, if_neg hn2]
      rfl
    have hq : parentOf (parentOf dest ++ [name]) = parentOf dest := by
      unfold parentOf
      simp
    have hpdir : isDirAt (dirChain dest) (parentOf (parentOf dest ++ [name])) := by
      rw [hq]
      by_cases h1 : dest.length ≤ 1
      · left
        have : (parentOf dest).length = 0 := by
          simp only [parentOf, List.length_dropLast]
          omega
        exact List.length_eq_zero.mp this
      · right
        have h2 : dest.length - 2 < dest.length := by omega
        have h3 := (cleanBase_dirChain dest).1 (dest.length - 2) h2
        rwa [show dest.length - 2 + 1 = dest.length - 1 by omega,
          ← List.dropLast_eq_take] at h3
    have hnone : lookupFs (dirChain dest) (parentOf dest ++ [name]) = none := by
      apply lookupFs_eq_none_of_not_mem
      rw [dirChain_map_fst]
      intro hmem
      obtain ⟨i, hi, heq⟩ := List.mem_map.mp hmem
      rw [List.mem_range] at hi
      have hlen2 := congrArg List.length heq
      rw [List.length_take, hlen] at hlen2
      have hieq : i + 1 = dest.length := by omega
      rw [hieq, List.take_length] at heq
      exact hbeside heq.symm
    have hwrite : write_file (dirChain dest) (parentOf dest ++ [name]) contents
        = .ok (dirChain dest ++ [(parentOf dest ++ [name], NodeKind.file contents)]) := by
      unfold write_file
      rw [if_neg (by simp : ¬ parentOf dest ++ [name] = []),
        if_neg (not_not_intro hpdir), hnone]
    show (write_file (dirChain dest) (resolveTarPath dest ⟨false, ["..", name]⟩) contents
      >>= fun fs => List.foldlM (unpack_entry dest) fs []) = _
    rw [hres, hwrite, exceptOkBind]
    rfl
  · intro hpre
    have h1 := hpre.length_le
    exact hbeside (hpre.eq_of_length (by omega)).symm

/-- Witness for the amended C5: the escape exercised at another concrete
destination and entry name. -/
theorem decompress_tar_escape_witness :
    decompress_tar [TarEntry.file ⟨false, ["..", "pwn"]⟩ [7]] ["srv", "data"]
        (dirChain ["srv", "data"])
      = .ok (dirChain ["srv", "data"] ++ [(["srv", "pwn"], NodeKind.file [7])]) ∧
    ¬ ["srv", "data"] <+: ["srv", "pwn"] :=
  decompress_tar_escape ["srv", "data"] "pwn" [7] (by decide) (by decide) (by decide)
    (by decide)

end Vsnap
